import Mathlib

/-!
Verification of the core text-layout, reference-parsing and navigation
state machine of the sword-tui terminal Bible reader.

The definitions below are a shallow embedding of the Go source in
`internal/ui/model.go`.  Text is modelled as `List Char` (the source works
on strings of runes), Go `int` values are modelled as unbounded `Int`
(with `strconv.Atoi`'s 64-bit overflow failure modelled explicitly where
the source checks the error), and the few places where the source uses
Go's Unicode tables (`unicode.IsSpace`, `strings.ToLower`) are modelled
by the exact character lists of those tables (ASCII case folding for
`ToLower`, which is exact for every string the program feeds it).
-/

deriving instance DecidableEq for Except

namespace SwordTui

/-- Character class of Go's `unicode.IsSpace` (used by `strings.TrimSpace`
and `strings.Fields`): ASCII whitespace, NEL, NBSP and the Unicode
White_Space code points. -/
def isGoSpace (c : Char) : Bool :=
  c = ' ' || c = '\t' || c = '\n' || (0xB ≤ c.toNat && c.toNat ≤ 0xD) ||
  c.toNat = 0x85 || c.toNat = 0xA0 || c.toNat = 0x1680 ||
  (0x2000 ≤ c.toNat && c.toNat ≤ 0x200A) ||
  c.toNat = 0x2028 || c.toNat = 0x2029 || c.toNat = 0x202F ||
  c.toNat = 0x205F || c.toNat = 0x3000

/-- Character class of `\s` in Go's `regexp` package (Perl class):
tab, newline, form feed, carriage return and space. -/
def isRegexSpace (c : Char) : Bool :=
  c = '\t' || c = '\n' || c = '\x0c' || c = '\r' || c = ' '

/-- Character class of `\d` in Go's `regexp` package. -/
def isDigitChar (c : Char) : Bool :=
  '0' ≤ c && c ≤ '9'

/-- ASCII letters and digits, the non-space part of the book-token class
`[a-zA-Z0-9\s]` of the reference regular expression. -/
def isAsciiAlphaNum (c : Char) : Bool :=
  ('a' ≤ c && c ≤ 'z') || ('A' ≤ c && c ≤ 'Z') || isDigitChar c

/-- ASCII case folding, the restriction of Go's `strings.ToLower` to the
ASCII strings the program applies it to (book names and user queries). -/
def toLowerChar (c : Char) : Char :=
  if 'A' ≤ c && c ≤ 'Z' then Char.ofNat (c.toNat + 32) else c

def toLowerAscii (l : List Char) : List Char :=
  l.map toLowerChar

/-- Pattern test: `startsWith pat l` holds when `pat` is an initial
segment of `l` (Go's `strings.HasPrefix`). -/
def startsWith : List Char → List Char → Bool
  | [], _ => true
  | _ :: _, [] => false
  | p :: ps, c :: cs => p = c && startsWith ps cs

/-- Go's `strings.TrimSpace`: drop `unicode.IsSpace` characters from both
ends. -/
def goTrimSpace (l : List Char) : List Char :=
  ((l.dropWhile isGoSpace).reverse.dropWhile isGoSpace).reverse

/-- Splitting accumulator for `goFields`: `cur` holds the reversed
current word. -/
def fieldsAux (cur : List Char) : List Char → List (List Char)
  | [] => if cur = [] then [] else [cur.reverse]
  | c :: rest =>
    if isGoSpace c then
      if cur = [] then fieldsAux [] rest else cur.reverse :: fieldsAux [] rest
    else
      fieldsAux (c :: cur) rest

/-- Go's `strings.Fields`: the maximal runs of non-space characters. -/
def goFields (l : List Char) : List (List Char) :=
  fieldsAux [] l

/-! ## The text wrapper `wrapTextWithIndent` (model.go lines 1909-1954)

The Go loop keeps a current line buffer with its length, flushes the
buffer when the next word would overflow `width`, left-pads continuation
lines with `indent` spaces and then (because the padded buffer is
non-empty) also writes the single separator space before the word.
`placeWord` is the body of one loop iteration after the flush decision,
`wrapLoop` is the loop itself; the final buffer becomes the last line. -/

/-- One iteration of the Go wrapping loop after the flush check: pad a
fresh continuation line with `indent` spaces, write a separator space
when the buffer is non-empty, then append the word. -/
def placeWord (indent : Nat) (cur : List Char) (len : Nat) (first : Bool)
    (w : List Char) : List Char × Nat :=
  let s1 := if len = 0 && !first then (cur ++ List.replicate indent ' ', indent) else (cur, len)
  let s2 := if 0 < s1.2 then (s1.1 ++ [' '], s1.2 + 1) else s1
  (s2.1 ++ w, s2.2 + w.length)

/-- The wrapping loop: `cur`/`len` mirror `currentLine`/`currentLength`,
`first` mirrors `isFirstLine`; returns the list of produced lines (the
Go builder joins them with newlines). -/
def wrapLoop (width : Int) (indent : Nat) :
    List (List Char) → List Char → Nat → Bool → List (List Char)
  | [], cur, _, _ => [cur]
  | w :: rest, cur, len, first =>
    if 0 < len ∧ (len : Int) + 1 + w.length > width then
      let p := placeWord indent [] 0 false w
      cur :: wrapLoop width indent rest p.1 p.2 false
    else
      let p := placeWord indent cur len first w
      wrapLoop width indent rest p.1 p.2 first

/-- The lines produced for a text, before joining with newlines. -/
def wrapLines (text : List Char) (width : Int) (indent : Nat) : List (List Char) :=
  wrapLoop width indent (goFields text) [] 0 true

/-- model.go `wrapTextWithIndent`: greedy word wrap with hanging indent.
A non-positive width returns the text unchanged.  (The Go parameter
`indent` is an `int`; the program only ever passes non-negative values —
a negative value would panic in `strings.Repeat` — so it is a `Nat`.) -/
def wrapTextWithIndent (text : String) (width : Int) (indent : Nat) : String :=
  if width ≤ 0 then text
  else
    match goFields text.data with
    | [] => ""
    | ws => String.mk (List.intercalate ['\n'] (wrapLoop width indent ws [] 0 true))

/-- Leading run of space characters of a line. -/
def leadingSpaces (l : List Char) : Nat :=
  (l.takeWhile (· = ' ')).length

/-- Words joined by single spaces (how a produced line renders a word
sequence). -/
def sepJoin : List (List Char) → List Char
  | [] => []
  | [w] => w
  | w :: rest => w ++ ' ' :: sepJoin rest

/-- The padding a continuation line actually starts with: the `indent`
spaces of the hanging indent plus the separator space the loop then
writes because the padded buffer is non-empty (none when `indent = 0`,
since then the buffer is still empty). -/
def contPad (indent : Nat) : List Char :=
  if indent = 0 then [] else List.replicate (indent + 1) ' '

/-- A word universe of non-empty, whitespace-free words (what
`strings.Fields` produces). -/
def wordsOK (ws : List (List Char)) : Prop :=
  ∀ w ∈ ws, w ≠ [] ∧ ∀ c ∈ w, isGoSpace c = false

/-- Loop invariant for the current line buffer: some non-empty word
sequence drawn from `ws`, rendered after the line's padding, and within
`width` as soon as it carries at least two words. -/
def lineRep (width : Int) (indent : Nat) (ws : List (List Char)) (first : Bool)
    (cur : List Char) : Prop :=
  ∃ ws0, ws0 ≠ [] ∧ (∀ w ∈ ws0, w ∈ ws) ∧
    cur = (if first then ([] : List Char) else contPad indent) ++ sepJoin ws0 ∧
    (2 ≤ ws0.length → (cur.length : Int) ≤ width)

/-- What holds of every produced line: it fits the width, or it consists
of a single word (with the continuation padding in front when the line
is not the first). -/
def lineOK (width : Int) (indent : Nat) (ws : List (List Char)) (l : List Char) : Prop :=
  (l.length : Int) ≤ width ∨ ∃ w ∈ ws, l = w ∨ l = contPad indent ++ w

/-- What holds of every continuation line: its leading space run is
exactly the actual padding (`indent + 1` spaces when `indent > 0`,
nothing when `indent = 0`). -/
def padOK (indent : Nat) (l : List Char) : Prop :=
  leadingSpaces l = (contPad indent).length

/-! ## The HTML stripper `stripHTMLTags` (model.go lines 2033-2084)

The source applies, in order: the tag regular expression `<[^>]*>`
replaced by a space, fourteen fixed named-entity replacements, decimal
numeric entities, hexadecimal numeric entities, collapsing of `\s+` runs
to one space, and `strings.TrimSpace`. -/

/-- Drop everything up to and including the first `>`; `none` when the
list has no `>` (then no tag match can start at the current `<`, nor at
any later `<`). -/
def cutGt : List Char → Option (List Char)
  | [] => none
  | c :: r => if c = '>' then some r else cutGt r

/-- Fuelled scanner for the tag regular expression `<[^>]*>`; every step
consumes at least one character, so fuel `l.length + 1` is enough. -/
def replaceTagsF : Nat → List Char → List Char
  | 0, l => l
  | _ + 1, [] => []
  | fuel + 1, c :: rest =>
    if c = '<' then
      match cutGt rest with
      | some rest2 => ' ' :: replaceTagsF fuel rest2
      | none => c :: rest
    else
      c :: replaceTagsF fuel rest

/-- Replace every match of `<[^>]*>` (a `<`, a maximal run of non-`>`
characters, a `>`) by one space, scanning left to right. -/
def replaceTags (l : List Char) : List Char :=
  replaceTagsF (l.length + 1) l

/-- Fuelled scanner for `strings.ReplaceAll`. -/
def repAllF (pat repl : List Char) : Nat → List Char → List Char
  | 0, s => s
  | _ + 1, [] => []
  | fuel + 1, c :: rest =>
    if startsWith pat (c :: rest) ∧ 0 < pat.length then
      repl ++ repAllF pat repl fuel ((c :: rest).drop pat.length)
    else
      c :: repAllF pat repl fuel rest

/-- Go's `strings.ReplaceAll` for a non-empty pattern: replace the
leftmost occurrences, non-overlapping, not rescanning the replacement. -/
def repAll (pat repl : List Char) (s : List Char) : List Char :=
  repAllF pat repl (s.length + 1) s

/-- String-level wrapper for `repAll`. -/
def repAllStr (pat repl s : String) : String :=
  String.mk (repAll pat.data repl.data s.data)

/-- The fourteen named-entity replacements of `stripHTMLTags`, applied in
source order (`&amp;` is decoded before `&lt;`, `&gt;` and `&quot;`). -/
def decodeNamedEntities (s : List Char) : List Char :=
  let s := repAll "&nbsp;".data " ".data s
  let s := repAll "&amp;".data "&".data s
  let s := repAll "&lt;".data "<".data s
  let s := repAll "&gt;".data ">".data s
  let s := repAll "&quot;".data "\"".data s
  let s := repAll "&#39;".data "'".data s
  let s := repAll "&apos;".data "'".data s
  let s := repAll "&ldquo;".data "“".data s
  let s := repAll "&rdquo;".data "”".data s
  let s := repAll "&lsquo;".data "‘".data s
  let s := repAll "&rsquo;".data "’".data s
  let s := repAll "&mdash;".data "—".data s
  let s := repAll "&ndash;".data "–".data s
  repAll "&hellip;".data "…".data s

/-- Decimal value of a digit run. -/
def digitsVal (l : List Char) : Nat :=
  l.foldl (fun acc c => acc * 10 + (c.toNat - '0'.toNat)) 0

/-- Hexadecimal digit value. -/
def hexDigitVal (c : Char) : Nat :=
  if '0' ≤ c && c ≤ '9' then c.toNat - '0'.toNat
  else if 'a' ≤ c && c ≤ 'f' then c.toNat - 'a'.toNat + 10
  else c.toNat - 'A'.toNat + 10

/-- Hexadecimal value of a hex-digit run. -/
def hexVal (l : List Char) : Nat :=
  l.foldl (fun acc c => acc * 16 + hexDigitVal c) 0

def isHexDigit (c : Char) : Bool :=
  ('0' ≤ c && c ≤ '9') || ('a' ≤ c && c ≤ 'f') || ('A' ≤ c && c ≤ 'F')

/-- Go's `string(rune(n))` for `n < 0x110000`: surrogate code points
become U+FFFD. -/
def goRuneChar (n : Nat) : Char :=
  if 0xD800 ≤ n ∧ n < 0xE000 then Char.ofNat 0xFFFD else Char.ofNat n

/-- Fuelled scanner for the decimal-entity regular expression `&#(\d+);`
with `ReplaceAllStringFunc`: a match whose code point is at least
0x110000 is kept verbatim, and scanning continues after the match either
way. -/
def decNumF : Nat → List Char → List Char
  | 0, l => l
  | _ + 1, [] => []
  | fuel + 1, '&' :: '#' :: rest =>
    let ds := rest.takeWhile isDigitChar
    match rest.dropWhile isDigitChar with
    | ';' :: tl2 =>
      if 0 < ds.length then
        (if digitsVal ds < 0x110000 then [goRuneChar (digitsVal ds)]
         else '&' :: '#' :: ds ++ [';']) ++ decNumF fuel tl2
      else
        '&' :: decNumF fuel ('#' :: rest)
    | _ => '&' :: decNumF fuel ('#' :: rest)
  | fuel + 1, c :: rest => c :: decNumF fuel rest

/-- Decode decimal entities `&#NNN;`. -/
def decNum (l : List Char) : List Char :=
  decNumF (l.length + 1) l

/-- Fuelled scanner for the hexadecimal-entity regular expression
`&#[xX]([0-9a-fA-F]+);` (values of at least 0x110000, which includes
every value `strconv.ParseInt` rejects for 32 bits, are kept verbatim). -/
def decHexF : Nat → List Char → List Char
  | 0, l => l
  | _ + 1, [] => []
  | fuel + 1, '&' :: '#' :: x :: rest =>
    if x = 'x' ∨ x = 'X' then
      let ds := rest.takeWhile isHexDigit
      match rest.dropWhile isHexDigit with
      | ';' :: tl2 =>
        if 0 < ds.length then
          (if hexVal ds < 0x110000 then [goRuneChar (hexVal ds)]
           else '&' :: '#' :: x :: ds ++ [';']) ++ decHexF fuel tl2
        else
          '&' :: decHexF fuel ('#' :: x :: rest)
      | _ => '&' :: decHexF fuel ('#' :: x :: rest)
    else
      '&' :: decHexF fuel ('#' :: x :: rest)
  | fuel + 1, c :: rest => c :: decHexF fuel rest

/-- Decode hexadecimal entities `&#xHHHH;` / `&#XHHHH;`. -/
def decHex (l : List Char) : List Char :=
  decHexF (l.length + 1) l

/-- Collapse accumulator: `inRun` records whether the previous character
belonged to a `\s` run that has already emitted its single space. -/
def collapseAux (inRun : Bool) : List Char → List Char
  | [] => []
  | c :: rest =>
    if isRegexSpace c then
      if inRun then collapseAux true rest else ' ' :: collapseAux true rest
    else
      c :: collapseAux false rest

/-- Replace every maximal run of `\s` characters by a single space
(the `\s+` → `" "` regular-expression replacement of the source). -/
def collapseWS (l : List Char) : List Char :=
  collapseAux false l

/-- model.go `stripHTMLTags` on character lists. -/
def stripHTMLTagsCore (l : List Char) : List Char :=
  goTrimSpace (collapseWS (decHex (decNum (decodeNamedEntities (replaceTags l)))))

/-- model.go `stripHTMLTags`: replace tags by spaces, decode entities,
collapse whitespace runs and trim. -/
def stripHTMLTags (s : String) : String :=
  String.mk (stripHTMLTagsCore s.data)

/-- Whitespace runs are collapsed: every remaining `\s`-class character
is a plain space and no two adjacent characters are both spaces. -/
def wsCollapsed (l : List Char) : Prop :=
  (∀ c ∈ l, isRegexSpace c = true → c = ' ') ∧
  l.Chain' (fun a b => ¬(a = ' ' ∧ b = ' '))

/-- The ends are trimmed: neither the first nor the last character is
whitespace in the `unicode.IsSpace` sense. -/
def wsTrimmed (l : List Char) : Prop :=
  (∀ c, l.head? = some c → isGoSpace c = false) ∧
  (∀ c, l.getLast? = some c → isGoSpace c = false)

/-! ## The reference parser (model.go lines 2086-2295) -/

/-- api.Book (the fields the core uses). -/
structure Book where
  bookID : Int
  name : String
  chapters : Int
  deriving DecidableEq

/-- api.Verse (the fields the core uses). -/
structure Verse where
  verse : Int
  text : String
  deriving DecidableEq

/-- The abbreviation table `bookAbbrevs` of `fuzzyMatchBook`, keyed by the
lower-cased canonical book name (a missing key behaves as the empty
list, like a failed Go map lookup). -/
def bookAbbrevs : String → List String
  | "genesis" => ["gen", "ge", "gn"]
  | "exodus" => ["exo", "ex", "exod"]
  | "leviticus" => ["lev", "le", "lv"]
  | "numbers" => ["num", "nu", "nm", "nb"]
  | "deuteronomy" => ["deut", "de", "dt"]
  | "joshua" => ["josh", "jos", "jsh"]
  | "judges" => ["judg", "jdg", "jg", "jdgs"]
  | "ruth" => ["rut", "ru", "rth"]
  | "1 samuel" => ["1sam", "1sa", "1samuel", "1 sam", "1 sa", "1s"]
  | "2 samuel" => ["2sam", "2sa", "2samuel", "2 sam", "2 sa", "2s"]
  | "1 kings" => ["1king", "1kgs", "1ki", "1k", "1 kings", "1 kgs"]
  | "2 kings" => ["2king", "2kgs", "2ki", "2k", "2 kings", "2 kgs"]
  | "1 chronicles" => ["1chron", "1chr", "1ch", "1 chronicles", "1 chr"]
  | "2 chronicles" => ["2chron", "2chr", "2ch", "2 chronicles", "2 chr"]
  | "ezra" => ["ezr", "ez"]
  | "nehemiah" => ["neh", "ne"]
  | "esther" => ["est", "es"]
  | "job" => ["jb"]
  | "psalms" => ["psalm", "psa", "ps", "pss"]
  | "proverbs" => ["prov", "pro", "pr", "prv"]
  | "ecclesiastes" => ["eccl", "ecc", "ec", "qoh"]
  | "song of solomon" => ["song", "sos", "so", "canticle", "canticles", "song of songs"]
  | "isaiah" => ["isa", "is"]
  | "jeremiah" => ["jer", "je", "jr"]
  | "lamentations" => ["lam", "la"]
  | "ezekiel" => ["ezek", "eze", "ezk"]
  | "daniel" => ["dan", "da", "dn"]
  | "hosea" => ["hos", "ho"]
  | "joel" => ["joe", "jl"]
  | "amos" => ["amo", "am"]
  | "obadiah" => ["obad", "ob"]
  | "jonah" => ["jon", "jnh"]
  | "micah" => ["mic", "mi"]
  | "nahum" => ["nah", "na"]
  | "habakkuk" => ["hab", "hb"]
  | "zephaniah" => ["zeph", "zep", "zp"]
  | "haggai" => ["hag", "hg"]
  | "zechariah" => ["zech", "zec", "zc"]
  | "malachi" => ["mal", "ml"]
  | "matthew" => ["matt", "mat", "mt"]
  | "mark" => ["mar", "mrk", "mk", "mr"]
  | "luke" => ["luk", "lk"]
  | "john" => ["joh", "jhn", "jn"]
  | "acts" => ["act", "ac"]
  | "romans" => ["rom", "ro", "rm"]
  | "1 corinthians" => ["1cor", "1co", "1 corinthians", "1 cor"]
  | "2 corinthians" => ["2cor", "2co", "2 corinthians", "2 cor"]
  | "galatians" => ["gal", "ga"]
  | "ephesians" => ["eph", "ephes"]
  | "philippians" => ["phil", "php", "pp"]
  | "colossians" => ["col", "co"]
  | "1 thessalonians" => ["1thess", "1th", "1 thessalonians", "1 thess"]
  | "2 thessalonians" => ["2thess", "2th", "2 thessalonians", "2 thess"]
  | "1 timothy" => ["1tim", "1ti", "1 timothy", "1 tim"]
  | "2 timothy" => ["2tim", "2ti", "2 timothy", "2 tim"]
  | "titus" => ["tit", "ti"]
  | "philemon" => ["philem", "phm", "pm"]
  | "hebrews" => ["heb", "he"]
  | "james" => ["jam", "jas", "jm"]
  | "1 peter" => ["1pet", "1pe", "1pt", "1p", "1 peter", "1 pet"]
  | "2 peter" => ["2pet", "2pe", "2pt", "2p", "2 peter", "2 pet"]
  | "1 john" => ["1john", "1jn", "1jo", "1j", "1 john"]
  | "2 john" => ["2john", "2jn", "2jo", "2j", "2 john"]
  | "3 john" => ["3john", "3jn", "3jo", "3j", "3 john"]
  | "jude" => ["jud", "jd"]
  | "revelation" => ["rev", "re", "rv"]
  | _ => []

/-- Lower-cased form of a string (the program only feeds ASCII here). -/
def lowerStr (s : String) : String :=
  String.mk (toLowerAscii s.data)

/-- model.go `fuzzyMatchBook`: exact case-insensitive name match, then
the abbreviation table, then a case-insensitive prefix match, each as a
first-hit scan over the book list. -/
def fuzzyMatchBook (query : String) (books : List Book) : Option (Int × String) :=
  let q := lowerStr (String.mk (goTrimSpace query.data))
  match books.find? (fun b => lowerStr b.name == q) with
  | some b => some (b.bookID, b.name)
  | none =>
    match books.find? (fun b => (bookAbbrevs (lowerStr b.name)).contains q) with
    | some b => some (b.bookID, b.name)
    | none =>
      match books.find? (fun b => startsWith q.data (lowerStr b.name).data) with
      | some b => some (b.bookID, b.name)
      | none => none

/-- Go's `strings.Split` with a one-character separator. -/
def splitOnChar (sep : Char) : List Char → List (List Char)
  | [] => [[]]
  | c :: rest =>
    if c = sep then [] :: splitOnChar sep rest
    else
      match splitOnChar sep rest with
      | w :: ws => (c :: w) :: ws
      | [] => [[c]]

/-- Go's `strconv.Atoi`: optional sign, at least one digit, nothing else,
failing outside the 64-bit signed range. -/
def goAtoiL (l : List Char) : Option Int :=
  let p : Bool × List Char :=
    match l with
    | '-' :: t => (true, t)
    | '+' :: t => (false, t)
    | t => (false, t)
  if p.2 ≠ [] ∧ p.2.all isDigitChar then
    let n := digitsVal p.2
    if p.1 then
      if n ≤ 9223372036854775808 then some (-(n : Int)) else none
    else
      if n ≤ 9223372036854775807 then some (n : Int) else none
  else none

/-- Book-token character class `[a-zA-Z0-9\s]` of the reference regular
expression. -/
def isBookTokenChar (c : Char) : Bool :=
  isAsciiAlphaNum c || isRegexSpace c

/-- Matching of the anchored reference regular expression
`^([a-zA-Z0-9\s]+)\s+(\d+):(\d+)(?:-(\d+))?$` against a trimmed input,
returning the book token, the chapter digits, the first verse digits and
the optional second verse digits.  The pattern forces a unique
decomposition: the input must contain exactly one `:`; the part after it
is `\d+` or `\d+-\d+`; before it, the chapter digits are the maximal
trailing digit run (the `\s+` separator cannot end in a digit), the
separator is the maximal whitespace run before them (the greedy group 1
only moves trailing whitespace, which `TrimSpace` removes from the token
anyway), and the rest is the non-empty book token. -/
def structMatch (l : List Char) : Option (List Char × List Char × List Char × Option (List Char)) :=
  match splitOnChar ':' l with
  | [left, right] =>
    let rres : Option (List Char × Option (List Char)) :=
      match splitOnChar '-' right with
      | [v1] => if v1 ≠ [] ∧ v1.all isDigitChar then some (v1, none) else none
      | [v1, v2] =>
        if v1 ≠ [] ∧ v1.all isDigitChar ∧ v2 ≠ [] ∧ v2.all isDigitChar then
          some (v1, some v2)
        else none
      | _ => none
    match rres with
    | none => none
    | some (v1, v2) =>
      let ds := (left.reverse.takeWhile isDigitChar).reverse
      let l1 := left.take (left.length - ds.length)
      let ws := (l1.reverse.takeWhile isRegexSpace).reverse
      let g1 := l1.take (l1.length - ws.length)
      if ds ≠ [] ∧ ws ≠ [] ∧ g1 ≠ [] ∧ g1.all isBookTokenChar then
        some (g1, ds, v1, v2)
      else none
  | _ => none

/-- model.go `parseReference`: try the structured regular expression,
then fall back to the whitespace-split legacy grammar.  (Go `int`
overflow of `Atoi` is modelled in `goAtoiL`.) -/
def parseReference (ref : String) (books : List Book) :
    Except String (Int × Int × Int × Int) :=
  let refT := goTrimSpace ref.data
  match structMatch refT with
  | some (g1, cds, v1ds, v2opt) =>
    let bookPart := String.mk (goTrimSpace g1)
    let bookRes : Except String Int :=
      match goAtoiL bookPart.data with
      | some n => .ok n
      | none =>
        if books.length > 0 then
          match fuzzyMatchBook bookPart books with
          | some (id, _) => .ok id
          | none => .error ("book not found: " ++ bookPart)
        else .error "no books loaded"
    match bookRes with
    | .error e => .error e
    | .ok bk =>
      match goAtoiL cds with
      | none => .error "invalid chapter"
      | some ch =>
        match goAtoiL v1ds with
        | none => .error "invalid verse"
        | some vs =>
          let ve :=
            match v2opt with
            | some d => (goAtoiL d).getD vs
            | none => vs
          .ok (bk, ch, vs, ve)
  | none =>
    match goFields refT with
    | [] => .error "empty reference"
    | p0 :: rest =>
      let bookRes : Except String Int :=
        match goAtoiL p0 with
        | some n => .ok n
        | none =>
          if books.length > 0 then
            match fuzzyMatchBook (String.mk p0) books with
            | some (id, _) => .ok id
            | none => .error ("book not found: " ++ String.mk p0)
          else .ok 1
      match bookRes with
      | .error e => .error e
      | .ok bk =>
        match rest with
        | [] => .ok (bk, 1, 0, 0)
        | cv :: _ =>
          let cvParts := splitOnChar ':' cv
          match goAtoiL (cvParts.headD []) with
          | none => .error "invalid chapter"
          | some ch =>
            let vsve : Int × Int :=
              match cvParts with
              | _ :: versePart :: _ =>
                if versePart.contains '-' then
                  let vr := splitOnChar '-' versePart
                  let vs := (goAtoiL (vr.headD [])).getD 0
                  let ve :=
                    match vr with
                    | _ :: v2 :: _ => (goAtoiL v2).getD 0
                    | _ => vs
                  (vs, ve)
                else
                  let vs := (goAtoiL versePart).getD 0
                  (vs, vs)
              | _ => (0, 0)
            .ok (bk, ch, vsve.1, vsve.2)

/-! ## The navigation state machine (model.go `Model` and `Update`)

`AppState` projects the `Model` struct onto the fields the claims are
about; the viewport, the text inputs and the styling state are outside
the projection (none of the transitions below reads or writes them in a
way the claims mention, except where a definition's comment says so).
Commands returned from `Update` are modelled as data. -/

/-- The `viewMode` enumeration (`modeSidebar` exists in the source but is
never assigned). -/
inductive Mode where
  | reader
  | search
  | comparison
  | translationSelect
  | sidebar
  | cacheManager
  | themeSelect
  | about
  deriving DecidableEq

/-- A dispatched fetch, modelled as data. -/
inductive Cmd where
  | loadChapter (translation : String) (book chapter : Int)
  deriving DecidableEq

/-- Projection of the `Model` struct. -/
structure AppState where
  mode : Mode
  books : List Book
  currentBook : Int
  currentChapter : Int
  currentBookName : String
  selectedTranslation : String
  loading : Bool
  showSidebar : Bool
  showMillerColumns : Bool
  millerFilterMode : Bool
  highlightedVerseStart : Int
  highlightedVerseEnd : Int
  currentVerses : Option (List Verse)
  deriving DecidableEq

/-- The `esc` branch of `Update` (model.go lines 659-681): the cache
manager is checked first, then Miller filter mode, then the Miller
overlay, then the sidebar, then the listed non-reader modes return to
the reader.  When nothing matches, the key falls through to the
viewport, which leaves the projected state unchanged. -/
def escStep (st : AppState) : AppState :=
  if st.mode = .cacheManager then { st with mode := .reader }
  else if st.showMillerColumns ∧ st.millerFilterMode then { st with millerFilterMode := false }
  else if st.showMillerColumns then { st with showMillerColumns := false }
  else if st.showSidebar then { st with showSidebar := false }
  else if st.mode = .search ∨ st.mode = .translationSelect ∨ st.mode = .themeSelect ∨
      st.mode = .about ∨ st.mode = .comparison then
    { st with mode := .reader }
  else st

/-- Modelled from the spec: the `esc` precedence the claim states —
Miller filter mode exits first, else the Miller overlay closes, else the
sidebar closes, else any non-reader mode returns to the reader; one
action per key press. -/
def specEscStep (st : AppState) : AppState :=
  if st.showMillerColumns ∧ st.millerFilterMode then { st with millerFilterMode := false }
  else if st.showMillerColumns then { st with showMillerColumns := false }
  else if st.showSidebar then { st with showSidebar := false }
  else if st.mode ≠ .reader then { st with mode := .reader }
  else st

/-- The `"n"` branch of `Update` (model.go lines 472-485): in reader
mode, scan the book list for an entry whose id is the current book and
whose chapter count the current chapter is below; the first hit
increments the chapter, sets `loading`, clears the highlight range and
dispatches a chapter fetch.  Otherwise nothing in the projected state
changes and no command is dispatched (the key falls through to the
viewport, whose key map ignores `n`). -/
def nextChapterStep (st : AppState) : AppState × Option Cmd :=
  if st.mode = .reader then
    match st.books.find? (fun bk => bk.bookID == st.currentBook && st.currentChapter < bk.chapters) with
    | some _ =>
      ({ st with currentChapter := st.currentChapter + 1, loading := true,
                 highlightedVerseStart := 0, highlightedVerseEnd := 0 },
       some (.loadChapter st.selectedTranslation st.currentBook (st.currentChapter + 1)))
    | none => (st, none)
  else (st, none)

/-- The `"p"` branch of `Update` (model.go lines 486-493): in reader mode
with the current chapter above 1, decrement it, set `loading`, clear the
highlight range and dispatch a chapter fetch; otherwise a no-op. -/
def prevChapterStep (st : AppState) : AppState × Option Cmd :=
  if st.mode = .reader ∧ 1 < st.currentChapter then
    ({ st with currentChapter := st.currentChapter - 1, loading := true,
               highlightedVerseStart := 0, highlightedVerseEnd := 0 },
     some (.loadChapter st.selectedTranslation st.currentBook (st.currentChapter - 1)))
  else (st, none)

/-- The `modeSearch` branch of the `enter` key (model.go lines 610-631),
with the text-input value passed explicitly.  On a parse success the
handler stores the parsed book, chapter and verse range verbatim, looks
the book name up, returns to the reader and dispatches a chapter fetch;
on a parse failure nothing in the projected state changes.  (In search
mode the overlays are closed, so the earlier `enter` branches do not
apply.) -/
def searchEnterStep (st : AppState) (input : String) : AppState × Option Cmd :=
  if st.mode = .search then
    match parseReference input st.books with
    | .error _ => (st, none)
    | .ok (b, c, vs, ve) =>
      let name := ((st.books.find? (fun bb => bb.bookID == b)).map (·.name)).getD st.currentBookName
      ({ st with currentBook := b, currentChapter := c,
                 highlightedVerseStart := vs, highlightedVerseEnd := ve,
                 currentBookName := name, mode := .reader, loading := true },
       some (.loadChapter st.selectedTranslation b c))
  else (st, none)

/-- The `chapterLoadedMsg` branch of `Update` (model.go lines 783-807):
clear `loading`, store the verses, and when no highlight is active
(`highlightedVerseStart == 0`) highlight the first verse of the list, or
verse 1 when the list is empty.  (Content formatting and the viewport
scroll that follow are outside the projection.) -/
def chapterLoadedStep (st : AppState) (verses : List Verse) : AppState :=
  let st1 : AppState := { st with loading := false, currentVerses := some verses }
  if st1.highlightedVerseStart = 0 then
    match verses with
    | v :: _ => { st1 with highlightedVerseStart := v.verse, highlightedVerseEnd := v.verse }
    | [] => { st1 with highlightedVerseStart := 1, highlightedVerseEnd := 1 }
  else st1

/-! ## The highlight/scroll synchronizer (model.go lines 1027-1125)

`calculateHighlightedVerse` and `scrollToHighlightedVerse` both compute,
for each verse, the same per-verse block size: the wrapped text's line
count plus a verse-number line and a blank separator line, with the text
width derived from the terminal width and the indent from the verse
number's decimal width. -/

/-- The per-verse text width both synchronizer functions compute:
`width - 10`, raised to at least 20, then capped at `width - 2`. -/
def syncTextWidth (width : Int) : Int :=
  let tw := width - 10
  let tw := if tw < 20 then 20 else tw
  if tw > width - 2 then width - 2 else tw

/-- Decimal rendering of a Go `int` (`fmt.Sprintf("%d", ...)`). -/
def intDecimal (i : Int) : String :=
  toString i

/-- Number of newline characters in a string (`strings.Count(s, "\n")`). -/
def countNL (s : String) : Nat :=
  (s.data.filter (fun c => c = '\n')).length

/-- Rendered line count of one verse block: verse-number line + wrapped
text lines + blank separator line. -/
def verseBlockLines (width : Int) (v : Verse) : Nat :=
  let text := stripHTMLTags v.text
  let indent := (intDecimal v.verse).length + 2
  let wrapped := wrapTextWithIndent text (syncTextWidth width) indent
  (countNL wrapped + 1) + 2

/-- The scan of `calculateHighlightedVerse`: the first verse whose block
end exceeds the offset. -/
def calcLoop (width : Int) (yOffset : Int) : List Verse → Int → Option Int
  | [], _ => none
  | v :: rest, cur =>
    if cur + (verseBlockLines width v : Int) > yOffset then some v.verse
    else calcLoop width yOffset rest (cur + (verseBlockLines width v : Int))

/-- model.go `calculateHighlightedVerse`: 1 when no verses are loaded,
else the verse at the viewport offset, else the last verse. -/
def calculateHighlightedVerse (verses : Option (List Verse)) (width : Int) (yOffset : Int) : Int :=
  match verses with
  | none => 1
  | some [] => 1
  | some vs =>
    match calcLoop width yOffset vs 0 with
    | some n => n
    | none =>
      match vs.getLast? with
      | some v => v.verse
      | none => 1

/-- The scan of `scrollToHighlightedVerse`: the accumulated line count up
to (not including) the first verse whose number is the target; `none`
when the target does not occur (then the function returns without
scrolling). -/
def scrollOffsetLoop (width : Int) (target : Int) : List Verse → Int → Option Int
  | [], _ => none
  | v :: rest, cur =>
    if v.verse = target then some cur
    else scrollOffsetLoop width target rest (cur + (verseBlockLines width v : Int))

/-- model.go `scrollToHighlightedVerse`: the offset of the target verse,
clamped below at 0 and above at `totalLines - viewportHeight` (itself
clamped below at 0), where `totalLines` counts the lines of the rendered
content string and `viewportHeight` is the viewport's height; both are
passed in here because they live outside the projection. -/
def scrollToHighlightedVerse (vs : List Verse) (width : Int) (target : Int)
    (totalLines viewportHeight : Int) : Option Int :=
  (scrollOffsetLoop width target vs 0).map (fun off =>
    let off := if off < 0 then 0 else off
    let maxOff := totalLines - viewportHeight
    let maxOff := if maxOff < 0 then 0 else maxOff
    if off > maxOff then maxOff else off)

/-! ## Concrete fixtures for counterexamples and witnesses -/

/-- A loaded book list with canonical names. -/
def demoBooks : List Book :=
  [⟨1, "Genesis", 50⟩, ⟨2, "Exodus", 40⟩, ⟨43, "John", 21⟩]

/-- A reader-mode base state. -/
def baseState : AppState where
  mode := .reader
  books := demoBooks
  currentBook := 1
  currentChapter := 1
  currentBookName := "Genesis"
  selectedTranslation := "NLT"
  loading := false
  showSidebar := false
  showMillerColumns := false
  millerFilterMode := false
  highlightedVerseStart := 0
  highlightedVerseEnd := 0
  currentVerses := none

/-- Search mode with the verse picker closed, as the search entry key
leaves it. -/
def searchState : AppState :=
  { baseState with mode := .search }

/-- The reachable state with the cache manager open on top of the Miller
overlay: from the reader with the overlay open (mode stays `reader`),
the `d` key checks only `mode == modeReader && !showSidebar` and so
switches to the cache manager without closing the overlay. -/
def cacheMillerState : AppState :=
  { baseState with mode := .cacheManager, showMillerColumns := true }

/-- Invariant of the claim: a positive highlight start never exceeds the
highlight end. -/
def highlightInv (st : AppState) : Prop :=
  0 < st.highlightedVerseStart → st.highlightedVerseStart ≤ st.highlightedVerseEnd

end SwordTui

namespace SwordTui

/-! ## Claim theorems -/

/-- C9: because `&amp;` is decoded before `&lt;`, `&gt;` and `&quot;`,
an escaped entity is double-decoded: `stripHTMLTags` maps `&amp;lt;` to
`<` (not to the single-decoding result `&lt;`), and likewise `&amp;gt;`
to `>` and `&amp;quot;` to `"`. -/
theorem entity_double_decode :
    stripHTMLTags "&amp;lt;" = "<" ∧ stripHTMLTags "&amp;lt;" ≠ "&lt;" ∧
    stripHTMLTags "&amp;gt;" = ">" ∧ stripHTMLTags "&amp;quot;" = "\"" := by
  decide

/-- C10: a `chapterLoaded` event with an empty verse list and no active
highlight sets both highlight bounds to 1 although no verse 1 exists in
the (empty) stored list, and `calculateHighlightedVerse` returns 1 for a
nil or empty verse list at every width and offset. -/
theorem empty_chapter_highlight (st : AppState) (width yOffset : Int)
    (h : st.highlightedVerseStart = 0) :
    (chapterLoadedStep st []).highlightedVerseStart = 1 ∧
    (chapterLoadedStep st []).highlightedVerseEnd = 1 ∧
    (chapterLoadedStep st []).currentVerses = some [] ∧
    calculateHighlightedVerse (some []) width yOffset = 1 ∧
    calculateHighlightedVerse none width yOffset = 1 := by
  refine ⟨?_, ?_, ?_, rfl, rfl⟩ <;> simp [chapterLoadedStep, h]

/-- C10 witness: the empty-chapter event at the initial state. -/
theorem empty_chapter_highlight_witness :
    baseState.highlightedVerseStart = 0 ∧
    (chapterLoadedStep baseState []).highlightedVerseStart = 1 := by
  exact ⟨by decide, (empty_chapter_highlight baseState 80 0 (by decide)).1⟩

/-- C7 counterexample: in the reachable state with the cache manager
open on top of the Miller overlay, `esc` does not close the overlay (as
the claimed precedence demands); it returns the mode to the reader and
leaves the overlay open, because the handler checks the cache manager
before the overlay. -/
theorem escStep_claim_counterexample :
    cacheMillerState.showMillerColumns = true ∧
    cacheMillerState.millerFilterMode = false ∧
    escStep cacheMillerState ≠ { cacheMillerState with showMillerColumns := false } ∧
    escStep cacheMillerState = { cacheMillerState with mode := .reader } ∧
    (escStep cacheMillerState).showMillerColumns = true := by
  decide

/-- C7 amended: the claimed `esc` precedence (filter mode exits first,
else the Miller overlay closes, else the sidebar closes, else a
non-reader mode returns to the reader, exactly one action per press)
holds for every state whose mode is neither the cache manager (which the
handler intercepts first) nor the never-assigned `sidebar` enum value
(which the final mode list omits). -/
theorem escStep_amended (st : AppState)
    (h1 : st.mode ≠ .cacheManager) (h2 : st.mode ≠ .sidebar) :
    escStep st = specEscStep st := by
  obtain ⟨mode, books, cb, cc, cbn, tr, ld, sb, mc, mf, hs, he, cv⟩ := st
  cases mode <;> cases sb <;> cases mc <;> cases mf <;>
    simp_all [escStep, specEscStep]

/-- C7 witness: with only the Miller overlay open in filter mode, one
`esc` exits just the filter mode. -/
theorem escStep_amended_witness :
    escStep { baseState with showMillerColumns := true, millerFilterMode := true } =
      { baseState with showMillerColumns := true, millerFilterMode := false } := by
  have h := escStep_amended { baseState with showMillerColumns := true, millerFilterMode := true }
    (by decide) (by decide)
  rw [h]; decide

/-- C2 counterexample: committing the search reference `1 1:5-2` stores
the inverted range verbatim, so the reachable state after the enter key
has a positive `highlightedVerseStart` strictly above
`highlightedVerseEnd`, violating the claimed invariant. -/
theorem searchEnter_invariant_counterexample :
    (searchEnterStep searchState "1 1:5-2").1.highlightedVerseStart = 5 ∧
    (searchEnterStep searchState "1 1:5-2").1.highlightedVerseEnd = 2 ∧
    ¬ highlightInv (searchEnterStep searchState "1 1:5-2").1 := by
  refine ⟨by decide, by decide, ?_⟩
  intro hinv
  have := hinv (by decide)
  revert this
  decide

/-- C2 amended: the enter handler in search mode preserves the invariant
`highlightedVerseStart ≤ highlightedVerseEnd when start > 0` for every
input whose successful parse yields a non-inverted verse range (in
particular every reference without an explicit inverted `-verse2`);
a failed parse leaves the state unchanged. -/
theorem searchEnter_invariant_amended (st : AppState) (input : String)
    (hinv : highlightInv st)
    (hparse : ∀ b c vs ve, parseReference input st.books = .ok (b, c, vs, ve) → vs ≤ ve) :
    highlightInv (searchEnterStep st input).1 := by
  unfold searchEnterStep
  by_cases hm : st.mode = .search
  · simp only [hm, if_pos rfl]
    match h : parseReference input st.books with
    | .error e => exact hinv
    | .ok (b, c, vs, ve) =>
      intro _
      exact hparse b c vs ve h
  · simpa [hm] using hinv

/-- Helper: a first hit of `p` that also satisfies `q` is the first hit
of the conjunction. -/
theorem find?_and_right {α} {p q : α → Bool} {l : List α} {a : α}
    (h : l.find? p = some a) (hq : q a = true) :
    l.find? (fun x => p x && q x) = some a := by
  induction l with
  | nil => simp at h
  | cons b t ih =>
    by_cases hb : p b = true
    · rw [List.find?_cons_of_pos _ hb] at h
      have hba : b = a := by injection h
      subst hba
      exact List.find?_cons_of_pos _ (by simp [hb, hq])
    · rw [List.find?_cons_of_neg _ hb] at h
      rw [List.find?_cons_of_neg _ (by simp [hb])]
      exact ih h

/-- Helper: with pairwise distinct book ids, if the entry found for the
current book is at its last chapter, no entry allows an increment. -/
theorem find?_next_none {l : List Book} {bk : Book} {cur ch : Int}
    (h : l.find? (fun b => b.bookID == cur) = some bk)
    (hnd : (l.map Book.bookID).Nodup)
    (hch : ¬ ch < bk.chapters) :
    l.find? (fun b => b.bookID == cur && ch < b.chapters) = none := by
  rw [List.find?_eq_none]
  intro x hx hpx
  simp only [Bool.and_eq_true, beq_iff_eq, decide_eq_true_eq] at hpx
  have hbk : bk ∈ l := List.mem_of_find?_eq_some h
  have hbkid : bk.bookID = cur := by
    have := List.find?_some h
    simpa using this
  have hxbk : x = bk :=
    List.inj_on_of_nodup_map hnd hx hbk (by rw [hpx.1, hbkid])
  exact hch (hxbk ▸ hpx.2)

/-- C2 witness: the invariant holds after committing `Gen 1:1-3`. -/
theorem searchEnter_invariant_amended_witness :
    highlightInv (searchEnterStep searchState "Gen 1:1-3").1 := by
  refine searchEnter_invariant_amended searchState "Gen 1:1-3" (by intro h; revert h; decide) ?_
  intro b c vs ve h
  rw [show parseReference "Gen 1:1-3" searchState.books = .ok (1, 1, 1, 3) from by decide] at h
  cases h
  decide

/-- C8: in reader mode with distinct book ids, pressing next-chapter at
the current book's last chapter (or previous-chapter at chapter 1)
leaves the whole projected state unchanged and dispatches no command;
in range, the chapter moves by one, a chapter fetch for the new position
is dispatched, and both highlight bounds are cleared to 0 while the book
stays the same. -/
theorem chapter_pagination_ok (st : AppState) (bk : Book)
    (hm : st.mode = .reader)
    (hfind : st.books.find? (fun b => b.bookID == st.currentBook) = some bk)
    (hnd : (st.books.map Book.bookID).Nodup) :
    (st.currentChapter = bk.chapters → nextChapterStep st = (st, none)) ∧
    (st.currentChapter < bk.chapters →
      nextChapterStep st =
        ({ st with currentChapter := st.currentChapter + 1, loading := true,
                   highlightedVerseStart := 0, highlightedVerseEnd := 0 },
         some (.loadChapter st.selectedTranslation st.currentBook (st.currentChapter + 1)))) ∧
    (st.currentChapter = 1 → prevChapterStep st = (st, none)) ∧
    (1 < st.currentChapter →
      prevChapterStep st =
        ({ st with currentChapter := st.currentChapter - 1, loading := true,
                   highlightedVerseStart := 0, highlightedVerseEnd := 0 },
         some (.loadChapter st.selectedTranslation st.currentBook (st.currentChapter - 1)))) := by
  refine ⟨?_, ?_, ?_, ?_⟩
  · intro hch
    have hnone : st.books.find?
        (fun b => b.bookID == st.currentBook && decide (st.currentChapter < b.chapters)) = none :=
      find?_next_none hfind hnd (by omega)
    simp [nextChapterStep, hm, hnone]
  · intro hch
    have hsome : st.books.find?
        (fun b => b.bookID == st.currentBook && decide (st.currentChapter < b.chapters)) = some bk :=
      find?_and_right hfind (by simp [hch])
    simp [nextChapterStep, hm, hsome]
  · intro hch
    simp [prevChapterStep, hm, hch]
  · intro hch
    simp [prevChapterStep, hm, hch]

/-- C8 witness: at Genesis 50 (the last chapter) `n` is a no-op, and at
Genesis 1 `p` is a no-op. -/
theorem chapter_pagination_ok_witness :
    nextChapterStep { baseState with currentChapter := 50 } =
      ({ baseState with currentChapter := 50 }, none) ∧
    prevChapterStep baseState = (baseState, none) := by
  constructor
  · exact (chapter_pagination_ok { baseState with currentChapter := 50 } ⟨1, "Genesis", 50⟩
      (by decide) (by decide) (by decide)).1 (by decide)
  · exact (chapter_pagination_ok baseState ⟨1, "Genesis", 50⟩
      (by decide) (by decide) (by decide)).2.2.1 (by decide)

/-- C3: `Gen 1:1-3` parses against a loaded book list (Genesis has id 1)
to book 1, chapter 1, verses 1-3; every structured-form reference
without a `-verse2` suffix parses (when it succeeds) to equal verse
bounds; and the empty reference fails with `empty reference` for every
book list. -/
theorem parseReference_structured_ok :
    parseReference "Gen 1:1-3" demoBooks = .ok (1, 1, 1, 3) ∧
    (∀ (ref : String) (books : List Book) (g1 cds v1ds : List Char)
       (r : Int × Int × Int × Int),
       structMatch (goTrimSpace ref.data) = some (g1, cds, v1ds, none) →
       parseReference ref books = .ok r → r.2.2.2 = r.2.2.1) ∧
    (∀ books : List Book, parseReference "" books = .error "empty reference") := by
  refine ⟨by decide, ?_, ?_⟩
  · intro ref books g1 cds v1ds r hsm hr
    simp only [parseReference, hsm] at hr
    rcases hbp : goAtoiL (goTrimSpace g1) with _ | n
    all_goals simp only [hbp] at hr
    · by_cases hb : books.length > 0
      · simp only [if_pos hb] at hr
        rcases hfz : fuzzyMatchBook (String.mk (goTrimSpace g1)) books with _ | ⟨id, nm⟩
        all_goals simp only [hfz] at hr
        · cases hr
        · rcases hc : goAtoiL cds with _ | ch
          all_goals simp only [hc] at hr
          · cases hr
          · rcases hv : goAtoiL v1ds with _ | vs
            all_goals simp only [hv] at hr
            · cases hr
            · cases hr; rfl
      · simp only [if_neg hb] at hr
        cases hr
    · rcases hc : goAtoiL cds with _ | ch
      all_goals simp only [hc] at hr
      · cases hr
      · rcases hv : goAtoiL v1ds with _ | vs
        all_goals simp only [hv] at hr
        · cases hr
        · cases hr; rfl
  · intro books
    rfl

/-- C3 witness: the verse-bound equality at the concrete single-verse
reference `john 3:16`, and the empty reference over the demo list. -/
theorem parseReference_structured_ok_witness :
    parseReference "john 3:16" demoBooks = .ok (43, 3, 16, 16) ∧
    ((43 : Int), (3 : Int), (16 : Int), (16 : Int)).2.2.2 =
      ((43 : Int), (3 : Int), (16 : Int), (16 : Int)).2.2.1 ∧
    parseReference "" demoBooks = .error "empty reference" :=
  ⟨by decide,
   parseReference_structured_ok.2.1 "john 3:16" demoBooks
     "john".data "3".data "16".data (43, 3, 16, 16) (by decide) (by decide),
   parseReference_structured_ok.2.2 demoBooks⟩

/-- C5 counterexample: with an empty book list, the non-numeric book
token `Gen` does not fail — the fallback grammar defaults it to the
literal book id 1 and the parse succeeds. -/
theorem parseReference_emptyBooks_counterexample :
    goAtoiL "Gen".data = none ∧
    parseReference "Gen" [] = .ok (1, 1, 0, 0) := by
  decide

/-- C5 amended: with an empty book list, a structured-form reference
whose book token is numeric is accepted with that number as the literal
book id (failing only on a chapter or verse number outside the Go `int`
range), and a structured-form reference whose book token is non-numeric
fails with `no books loaded`; a fallback-form reference whose first
token is non-numeric never fails on the book — it defaults to book id 1
and can only fail on an invalid chapter segment. -/
theorem parseReference_emptyBooks_amended (ref : String) :
    (∀ g1 cds v1ds v2opt,
       structMatch (goTrimSpace ref.data) = some (g1, cds, v1ds, v2opt) →
       (∀ n : Int, goAtoiL (goTrimSpace g1) = some n →
          (∃ out, parseReference ref [] = .ok out ∧ out.1 = n) ∨
          parseReference ref [] = .error "invalid chapter" ∨
          parseReference ref [] = .error "invalid verse") ∧
       (goAtoiL (goTrimSpace g1) = none →
          parseReference ref [] = .error "no books loaded")) ∧
    (∀ p0 rest,
       structMatch (goTrimSpace ref.data) = none →
       goFields (goTrimSpace ref.data) = p0 :: rest →
       goAtoiL p0 = none →
       (∃ out, parseReference ref [] = .ok out ∧ out.1 = 1) ∨
       parseReference ref [] = .error "invalid chapter") := by
  constructor
  · intro g1 cds v1ds v2opt hsm
    constructor
    · intro n hn
      simp only [parseReference, hsm, hn]
      rcases hc : goAtoiL cds with _ | ch
      · simp [hc]
      · rcases hv : goAtoiL v1ds with _ | vs
        · simp [hc, hv]
        · simp only [hc, hv]
          exact Or.inl ⟨_, rfl, rfl⟩
    · intro hn
      simp [parseReference, hsm, hn]
  · intro p0 rest hsm hfields hp0
    simp only [parseReference, hsm, hfields, hp0, List.length_nil, gt_iff_lt,
      lt_self_iff_false, if_false]
    rcases rest with _ | ⟨cv, rest2⟩
    · exact Or.inl ⟨_, rfl, rfl⟩
    · rcases hc : goAtoiL ((splitOnChar ':' cv).headD []) with _ | ch
      · simp only [hc]
        exact Or.inr trivial
      · simp only [hc]
        exact Or.inl ⟨_, rfl, rfl⟩

/-- C5 witness: `12 3:4` is accepted with literal book id 12, and the
fallback `Gen 1` with no books loaded never fails on the book token. -/
theorem parseReference_emptyBooks_amended_witness :
    ((∃ out, parseReference "12 3:4" [] = .ok out ∧ out.1 = 12) ∨
      parseReference "12 3:4" [] = .error "invalid chapter" ∨
      parseReference "12 3:4" [] = .error "invalid verse") ∧
    ((∃ out, parseReference "Gen 1" [] = .ok out ∧ out.1 = 1) ∨
      parseReference "Gen 1" [] = .error "invalid chapter") := by
  constructor
  · exact ((parseReference_emptyBooks_amended "12 3:4").1
      "12".data "3".data "4".data none (by decide)).1 12 (by decide)
  · exact (parseReference_emptyBooks_amended "Gen 1").2
      "Gen".data ["1".data] (by decide) (by decide) (by decide)

/-- Helper: every verse block spans at least one line. -/
theorem one_le_verseBlockLines (w : Int) (v : Verse) : 1 ≤ verseBlockLines w v := by
  have h : verseBlockLines w v =
      (countNL (wrapTextWithIndent (stripHTMLTags v.text) (syncTextWidth w)
        ((intDecimal v.verse).length + 2)) + 1) + 2 := rfl
  omega

/-- Helper: when the target verse occurs in the list, the offset scan
finds it and feeding that offset back into the highlight scan returns
the target again. -/
theorem scroll_calc_key (w v : Int) :
    ∀ (vs : List Verse) (cur : Int), (∃ x ∈ vs, x.verse = v) →
      ∃ o, scrollOffsetLoop w v vs cur = some o ∧ cur ≤ o ∧ calcLoop w o vs cur = some v := by
  intro vs
  induction vs with
  | nil => intro cur h; simp at h
  | cons x rest ih =>
    intro cur h
    by_cases hx : x.verse = v
    · refine ⟨cur, ?_, le_refl cur, ?_⟩
      · simp [scrollOffsetLoop, hx]
      · have hb : 1 ≤ verseBlockLines w x := one_le_verseBlockLines w x
        have : cur + (verseBlockLines w x : Int) > cur := by
          have : (1 : Int) ≤ (verseBlockLines w x : Int) := by exact_mod_cast hb
          omega
        simp [calcLoop, this, hx]
    · have hrest : ∃ y ∈ rest, y.verse = v := by
        rcases h with ⟨y, hy, hyv⟩
        rcases List.mem_cons.mp hy with h1 | h1
        · exact absurd (h1 ▸ hyv) hx
        · exact ⟨y, h1, hyv⟩
      obtain ⟨o, h1, h2, h3⟩ := ih (cur + (verseBlockLines w x : Int)) hrest
      have hblk : (0 : Int) ≤ (verseBlockLines w x : Int) := Int.ofNat_nonneg _
      refine ⟨o, ?_, by omega, ?_⟩
      · simp [scrollOffsetLoop, hx, h1]
      · have hno : ¬ cur + (verseBlockLines w x : Int) > o := by omega
        simp [calcLoop, hno, h3]

/-- C6: for every loaded verse list and every verse number occurring in
it, the scroll offset `scrollToHighlightedVerse` computes (both
functions deriving block sizes from the same stripped, wrapped text),
fed back through `calculateHighlightedVerse`, yields that verse again,
provided the offset is not clamped at the end of the content. -/
theorem verse_offset_roundTrip (vs : List Verse) (w v totalLines viewportHeight : Int)
    (hv : ∃ x ∈ vs, x.verse = v)
    (hnc : ∀ o, scrollOffsetLoop w v vs 0 = some o →
       o ≤ (if totalLines - viewportHeight < 0 then 0 else totalLines - viewportHeight)) :
    ∃ o, scrollToHighlightedVerse vs w v totalLines viewportHeight = some o ∧
      calculateHighlightedVerse (some vs) w o = v := by
  obtain ⟨o, h1, h2, h3⟩ := scroll_calc_key w v vs 0 hv
  have ho : ¬ o < 0 := by omega
  have hmax := hnc o h1
  refine ⟨o, ?_, ?_⟩
  · simp only [scrollToHighlightedVerse, h1, Option.map_some']
    rw [if_neg ho, if_neg (not_lt.mpr hmax)]
  · rcases vs with _ | ⟨x, rest⟩
    · simp at hv
    · simp only [calculateHighlightedVerse, h3]

/-- C6 witness: the round trip at verse 2 of a concrete two-verse
chapter at width 80. -/
theorem verse_offset_roundTrip_witness :
    ∃ o, scrollToHighlightedVerse [⟨1, "In the beginning"⟩, ⟨2, "And the earth"⟩] 80 2 100 10 =
        some o ∧
      calculateHighlightedVerse (some [⟨1, "In the beginning"⟩, ⟨2, "And the earth"⟩]) 80 o = 2 := by
  refine verse_offset_roundTrip [⟨1, "In the beginning"⟩, ⟨2, "And the earth"⟩] 80 2 100 10
    ⟨⟨2, "And the earth"⟩, by decide, rfl⟩ ?_
  intro o h
  rw [show scrollOffsetLoop 80 2 [⟨1, "In the beginning"⟩, ⟨2, "And the earth"⟩] 0 = some 3 from by
    decide] at h
  cases h
  decide

/-- Helper: every `\s`-class character the collapse leaves behind is a
plain space. -/
theorem collapseAux_space_mem :
    ∀ (l : List Char) (b : Bool) (c : Char), c ∈ collapseAux b l → isRegexSpace c = true →
      c = ' ' := by
  intro l
  induction l with
  | nil => intro b c hc; simp [collapseAux] at hc
  | cons d rest ih =>
    intro b c hc hsp
    by_cases hd : isRegexSpace d = true
    · cases b with
      | true =>
        simp only [collapseAux, hd, if_pos] at hc
        exact ih true c hc hsp
      | false =>
        simp only [collapseAux, hd, if_pos] at hc
        rcases List.mem_cons.mp hc with h1 | h1
        · exact h1
        · exact ih true c h1 hsp
    · simp only [collapseAux, hd] at hc
      rcases List.mem_cons.mp hc with h1 | h1
      · exact absurd (h1 ▸ hsp) (by simpa using hd)
      · exact ih false c h1 hsp

/-- Helper: inside a run, the collapse next emits a non-space character
(or nothing). -/
theorem collapseAux_head_true :
    ∀ (l : List Char) (c : Char), (collapseAux true l).head? = some c →
      isRegexSpace c = false := by
  intro l
  induction l with
  | nil => intro c hc; simp [collapseAux] at hc
  | cons d rest ih =>
    intro c hc
    by_cases hd : isRegexSpace d = true
    · simp only [collapseAux, hd, if_pos] at hc
      exact ih c hc
    · have hdf : isRegexSpace d = false := by simpa using hd
      simp only [collapseAux, hdf, Bool.false_eq_true, if_false, List.head?_cons,
        Option.some.injEq] at hc
      rw [← hc]
      exact hdf

/-- Helper: the collapse never emits two adjacent spaces. -/
theorem collapseAux_chain :
    ∀ (l : List Char) (b : Bool),
      (collapseAux b l).Chain' (fun a c => ¬(a = ' ' ∧ c = ' ')) := by
  intro l
  induction l with
  | nil => intro b; simp [collapseAux]
  | cons d rest ih =>
    intro b
    by_cases hd : isRegexSpace d = true
    · cases b with
      | true => simpa only [collapseAux, hd, if_pos] using ih true
      | false =>
        simp only [collapseAux, hd, if_pos]
        refine List.chain'_cons'.mpr ⟨?_, ih true⟩
        intro y hy hcon
        have := collapseAux_head_true rest y hy
        rw [hcon.2] at this
        simp [isRegexSpace] at this
    · simp only [collapseAux, hd]
      refine List.chain'_cons'.mpr ⟨?_, ih false⟩
      intro y hy hcon
      rw [hcon.1] at hd
      simp [isRegexSpace] at hd

/-- Helper: the head of a `dropWhile` fails the predicate. -/
theorem head?_dropWhile_not (p : Char → Bool) :
    ∀ (l : List Char) (c : Char), (l.dropWhile p).head? = some c → p c = false := by
  intro l
  induction l with
  | nil => intro c hc; simp at hc
  | cons d rest ih =>
    intro c hc
    by_cases hd : p d = true
    · rw [List.dropWhile_cons_of_pos hd] at hc
      exact ih c hc
    · rw [List.dropWhile_cons_of_neg hd] at hc
      simp only [List.head?_cons, Option.some.injEq] at hc
      simpa [← hc] using hd

/-- Helper: a non-empty `dropWhile` keeps the last element. -/
theorem getLast?_dropWhile (p : Char → Bool) :
    ∀ l : List Char, l.dropWhile p ≠ [] → (l.dropWhile p).getLast? = l.getLast? := by
  intro l
  induction l with
  | nil => intro h; simp at h
  | cons d rest ih =>
    intro h
    by_cases hd : p d = true
    · rw [List.dropWhile_cons_of_pos hd] at h ⊢
      rw [ih h]
      rcases rest with _ | ⟨e, rest2⟩
      · simp at h
      · rw [List.getLast?_cons_cons]
    · rw [List.dropWhile_cons_of_neg hd]

/-- Helper: `dropWhile` preserves an adjacency chain. -/
theorem chain'_dropWhile {R : Char → Char → Prop} (p : Char → Bool) :
    ∀ l : List Char, l.Chain' R → (l.dropWhile p).Chain' R := by
  intro l
  induction l with
  | nil => intro h; exact h
  | cons d rest ih =>
    intro h
    by_cases hd : p d = true
    · rw [List.dropWhile_cons_of_pos hd]
      exact ih (List.chain'_cons'.mp h).2
    · rwa [List.dropWhile_cons_of_neg hd]

/-- Helper: membership in the trimmed list implies membership before
trimming. -/
theorem mem_goTrimSpace {c : Char} {l : List Char} (h : c ∈ goTrimSpace l) : c ∈ l := by
  unfold goTrimSpace at h
  rw [List.mem_reverse] at h
  have h2 := (List.dropWhile_sublist isGoSpace).mem h
  rw [List.mem_reverse] at h2
  exact (List.dropWhile_sublist isGoSpace).mem h2

/-- Helper: the trim preserves an adjacency chain built from a
symmetric-in-form relation. -/
theorem chain'_goTrimSpace (l : List Char)
    (h : l.Chain' (fun a c => ¬(a = ' ' ∧ c = ' '))) :
    (goTrimSpace l).Chain' (fun a c => ¬(a = ' ' ∧ c = ' ')) := by
  unfold goTrimSpace
  have h1 := chain'_dropWhile isGoSpace l h
  have h2 : ((l.dropWhile isGoSpace).reverse).Chain' (fun a c => ¬(a = ' ' ∧ c = ' ')) := by
    rw [List.chain'_reverse]
    exact h1.imp (fun a c hac hcon => hac ⟨hcon.2, hcon.1⟩)
  have h3 := chain'_dropWhile isGoSpace _ h2
  rw [List.chain'_reverse]
  exact h3.imp (fun a c hac hcon => hac ⟨hcon.2, hcon.1⟩)

/-- Helper: the first character of a trim result is not whitespace. -/
theorem goTrimSpace_head (l : List Char) (c : Char)
    (h : (goTrimSpace l).head? = some c) : isGoSpace c = false := by
  unfold goTrimSpace at h
  rw [List.head?_reverse] at h
  have hne : (l.dropWhile isGoSpace).reverse.dropWhile isGoSpace ≠ [] := by
    intro he; rw [he] at h; simp at h
  rw [getLast?_dropWhile isGoSpace _ hne] at h
  rw [List.getLast?_reverse] at h
  exact head?_dropWhile_not isGoSpace l c h

/-- Helper: the last character of a trim result is not whitespace. -/
theorem goTrimSpace_last (l : List Char) (c : Char)
    (h : (goTrimSpace l).getLast? = some c) : isGoSpace c = false := by
  unfold goTrimSpace at h
  rw [List.getLast?_reverse] at h
  exact head?_dropWhile_not isGoSpace _ c h

/-- C4: `stripHTMLTags` turns each `<...>` tag into one space (keeping
the word boundary, as the two concrete instances show), collapses every
whitespace run to a single space and trims both ends, for every input
string. -/
theorem stripHTMLTags_spec :
    stripHTMLTags "Hello<br/>world &amp; friends" = "Hello world & friends" ∧
    stripHTMLTags "a<b>c" = "a c" ∧
    (∀ s : String, wsCollapsed (stripHTMLTags s).data ∧ wsTrimmed (stripHTMLTags s).data) := by
  refine ⟨by decide, by decide, ?_⟩
  intro s
  simp only [stripHTMLTags, stripHTMLTagsCore]
  generalize decHex (decNum (decodeNamedEntities (replaceTags s.data))) = y
  constructor
  · constructor
    · intro c hc hsp
      exact collapseAux_space_mem _ false c (mem_goTrimSpace hc) hsp
    · exact chain'_goTrimSpace _ (collapseAux_chain _ false)
  · exact ⟨goTrimSpace_head _, goTrimSpace_last _⟩

/-- C4 witness: the collapse and trim invariants at a concrete noisy
input. -/
theorem stripHTMLTags_spec_witness :
    wsCollapsed (stripHTMLTags " x   <i>y</i>\t z ").data ∧
    wsTrimmed (stripHTMLTags " x   <i>y</i>\t z ").data :=
  stripHTMLTags_spec.2.2 " x   <i>y</i>\t z "

/-- Helper: the splitting accumulator only produces non-empty,
whitespace-free words. -/
theorem fieldsAux_wordsOK :
    ∀ (l cur : List Char), (∀ c ∈ cur, isGoSpace c = false) → wordsOK (fieldsAux cur l) := by
  intro l
  induction l with
  | nil =>
    intro cur hcur w hw
    by_cases hc : cur = []
    · simp [fieldsAux, hc] at hw
    · simp [fieldsAux, hc] at hw
      subst hw
      exact ⟨by simpa using hc, fun c hcm => hcur c (List.mem_reverse.mp hcm)⟩
  | cons d rest ih =>
    intro cur hcur w hw
    by_cases hd : isGoSpace d = true
    · by_cases hc : cur = []
      · simp only [fieldsAux, hd, if_pos, hc, if_true] at hw
        exact ih [] (by simp) w hw
      · simp only [fieldsAux, hd, if_pos, hc, if_false, List.mem_cons] at hw
        rcases hw with hw | hw
        · subst hw
          exact ⟨by simpa using hc, fun c hcm => hcur c (List.mem_reverse.mp hcm)⟩
        · exact ih [] (by simp) w hw
    · have hdf : isGoSpace d = false := by simpa using hd
      simp only [fieldsAux, hdf, Bool.false_eq_true, if_false] at hw
      refine ih (d :: cur) ?_ w hw
      intro c hcm
      rcases List.mem_cons.mp hcm with h | h
      · exact h ▸ hdf
      · exact hcur c h

/-- Helper: `strings.Fields` produces non-empty, whitespace-free words. -/
theorem goFields_wordsOK (l : List Char) : wordsOK (goFields l) :=
  fieldsAux_wordsOK l [] (by simp)

/-- Helper: placing the first word of the text. -/
theorem placeWord_first (indent : Nat) (w : List Char) :
    placeWord indent [] 0 true w = (w, w.length) := by
  simp [placeWord]

/-- Helper: placing the first word of a continuation line writes the
actual padding first. -/
theorem placeWord_cont (indent : Nat) (w : List Char) :
    placeWord indent [] 0 false w = (contPad indent ++ w, (contPad indent ++ w).length) := by
  by_cases h : indent = 0
  · simp [placeWord, contPad, h]
  · have hp : 0 < indent := Nat.pos_of_ne_zero h
    simp [placeWord, contPad, h, hp, List.replicate_succ' (n := indent), List.length_replicate]
    omega

/-- Helper: placing a further word on a non-empty line writes the
separator space first. -/
theorem placeWord_more (indent : Nat) (cur w : List Char) (first : Bool)
    (h : 0 < cur.length) :
    placeWord indent cur cur.length first w = (cur ++ ' ' :: w, (cur ++ ' ' :: w).length) := by
  have hne : cur.length ≠ 0 := Nat.pos_iff_ne_zero.mp h
  simp [placeWord, hne, h, List.length_append]
  omega

/-- Helper: joining a further word onto a non-empty join. -/
theorem sepJoin_append_single :
    ∀ (xs : List (List Char)) (y : List Char), xs ≠ [] →
      sepJoin (xs ++ [y]) = sepJoin xs ++ ' ' :: y := by
  intro xs
  induction xs with
  | nil => intro y h; exact absurd rfl h
  | cons x rest ih =>
    intro y _
    cases rest with
    | nil => rfl
    | cons z zs =>
      show x ++ ' ' :: sepJoin ((z :: zs) ++ [y]) = (x ++ ' ' :: sepJoin (z :: zs)) ++ ' ' :: y
      rw [ih y (by simp)]
      simp

/-- Helper: a join of non-empty words starts with a character of its
first word. -/
theorem sepJoin_head_mem :
    ∀ (ws0 : List (List Char)), ws0 ≠ [] → (∀ w ∈ ws0, w ≠ []) →
      ∃ c cs w, sepJoin ws0 = c :: cs ∧ w ∈ ws0 ∧ c ∈ w := by
  intro ws0
  cases ws0 with
  | nil => intro h; exact absurd rfl h
  | cons w rest =>
    intro _ hne
    have hw : w ≠ [] := hne w (by simp)
    obtain ⟨c, cs, hc⟩ : ∃ c cs, w = c :: cs := by
      cases w with
      | nil => exact absurd rfl hw
      | cons c cs => exact ⟨c, cs, rfl⟩
    cases rest with
    | nil => exact ⟨c, cs, w, by simp [sepJoin, hc], by simp, by simp [hc]⟩
    | cons z zs =>
      exact ⟨c, cs ++ ' ' :: sepJoin (z :: zs), w,
        by simp [sepJoin, hc], by simp, by simp [hc]⟩

/-- Helper: a list whose head is no space has no leading spaces. -/
theorem leadingSpaces_of_head (l : List Char) (h : ∀ c cs, l = c :: cs → c ≠ ' ') :
    leadingSpaces l = 0 := by
  cases l with
  | nil => rfl
  | cons c cs => simp [leadingSpaces, List.takeWhile_cons, h c cs rfl]

/-- Helper: leading spaces of padding followed by a word. -/
theorem leadingSpaces_replicate_append (n : Nat) (l : List Char)
    (h : ∀ c cs, l = c :: cs → c ≠ ' ') :
    leadingSpaces (List.replicate n ' ' ++ l) = n := by
  induction n with
  | zero => simpa using leadingSpaces_of_head l h
  | succ k ih =>
    have hstep : leadingSpaces (' ' :: (List.replicate k ' ' ++ l)) =
        leadingSpaces (List.replicate k ' ' ++ l) + 1 := by
      simp [leadingSpaces, List.takeWhile_cons]
    simp only [List.replicate_succ, List.cons_append, hstep, ih]

/-- Helper: a represented line buffer is never empty. -/
theorem lineRep_ne_nil {width : Int} {indent : Nat} {W : List (List Char)} {first : Bool}
    {cur : List Char} (hW : wordsOK W) (h : lineRep width indent W first cur) : cur ≠ [] := by
  obtain ⟨ws0, hne, hsub, hcur, _⟩ := h
  obtain ⟨c, cs, w, hj, hwmem, _⟩ :=
    sepJoin_head_mem ws0 hne (fun w hwm => (hW w (hsub w hwm)).1)
  rw [hcur, hj]
  simp

/-- Helper: a represented line buffer satisfies the width/single-word
alternative. -/
theorem lineRep_lineOK {width : Int} {indent : Nat} {W : List (List Char)} {first : Bool}
    {cur : List Char} (h : lineRep width indent W first cur) : lineOK width indent W cur := by
  obtain ⟨ws0, hne, hsub, hcur, hlen⟩ := h
  cases ws0 with
  | nil => exact absurd rfl hne
  | cons w rest =>
    cases rest with
    | nil =>
      refine Or.inr ⟨w, hsub w (by simp), ?_⟩
      cases first with
      | true => exact Or.inl (by simpa [sepJoin] using hcur)
      | false => exact Or.inr (by simpa [sepJoin] using hcur)
    | cons w2 rest2 =>
      exact Or.inl (hlen (by simp))

/-- Helper: a continuation line buffer has exactly the actual padding in
front. -/
theorem lineRep_padOK {width : Int} {indent : Nat} {W : List (List Char)}
    {cur : List Char} (hW : wordsOK W) (h : lineRep width indent W false cur) :
    padOK indent cur := by
  obtain ⟨ws0, hne, hsub, hcur, _⟩ := h
  obtain ⟨c, cs, w, hj, hwmem, hcmem⟩ :=
    sepJoin_head_mem ws0 hne (fun w hwm => (hW w (hsub w hwm)).1)
  have hcsp : isGoSpace c = false := (hW w (hsub w hwmem)).2 c hcmem
  have hcne : ∀ d ds, sepJoin ws0 = d :: ds → d ≠ ' ' := by
    intro d ds hd heq
    rw [hj] at hd
    injection hd with h1 _
    rw [h1, heq] at hcsp
    simp [isGoSpace] at hcsp
  simp only [Bool.false_eq_true, if_false] at hcur
  unfold padOK contPad
  by_cases hz : indent = 0
  · subst hz
    simp only [if_pos rfl, List.length_nil]
    rw [hcur]
    simpa using leadingSpaces_of_head _ hcne
  · simp only [hz, if_false, List.length_replicate]
    rw [hcur]
    simp only [contPad, hz, if_false]
    exact leadingSpaces_replicate_append (indent + 1) _ hcne

/-- Helper: the wrapping loop only emits lines that fit the width or
carry a single word, and every line after the first carries exactly the
actual continuation padding. -/
theorem wrapLoop_spec (width : Int) (hw : 0 < width) (indent : Nat) (W : List (List Char))
    (hW : wordsOK W) :
    ∀ (ws : List (List Char)) (cur : List Char) (first : Bool),
      (∀ w ∈ ws, w ∈ W) →
      ((cur = [] ∧ first = true) ∨ lineRep width indent W first cur) →
      (∀ l ∈ wrapLoop width indent ws cur cur.length first, lineOK width indent W l) ∧
      (∀ l ∈ (wrapLoop width indent ws cur cur.length first).drop 1, padOK indent l) ∧
      (first = false → ∀ l ∈ wrapLoop width indent ws cur cur.length first, padOK indent l) := by
  intro ws
  induction ws with
  | nil =>
    intro cur first hsub hinv
    refine ⟨?_, ?_, ?_⟩
    · intro l hl
      simp only [wrapLoop, List.mem_singleton] at hl
      subst hl
      rcases hinv with ⟨hc, _⟩ | hrep
      · subst hc
        exact Or.inl (by simpa using le_of_lt hw)
      · exact lineRep_lineOK hrep
    · intro l hl
      simp [wrapLoop] at hl
    · intro hf l hl
      simp only [wrapLoop, List.mem_singleton] at hl
      subst hl
      rcases hinv with ⟨_, hft⟩ | hrep
      · rw [hf] at hft; cases hft
      · exact lineRep_padOK hW (hf ▸ hrep)
  | cons w rest ih =>
    intro cur first hsub hinv
    have hwW : w ∈ W := hsub w (by simp)
    have hrestW : ∀ x ∈ rest, x ∈ W := fun x hx => hsub x (by simp [hx])
    by_cases hfl : 0 < cur.length ∧ (cur.length : Int) + 1 + w.length > width
    · have hcur_rep : lineRep width indent W first cur := by
        rcases hinv with ⟨hc, _⟩ | hrep
        · rw [hc] at hfl; simp at hfl
        · exact hrep
      have hnew : lineRep width indent W false (contPad indent ++ w) := by
        refine ⟨[w], by simp, by simpa using hwW, by simp [sepJoin], ?_⟩
        intro h2
        simp at h2
      have heq : wrapLoop width indent (w :: rest) cur cur.length first =
          cur :: wrapLoop width indent rest (contPad indent ++ w)
            (contPad indent ++ w).length false := by
        simp only [wrapLoop, if_pos hfl, placeWord_cont]
      obtain ⟨ha, hb, hc⟩ := ih (contPad indent ++ w) false hrestW (Or.inr hnew)
      rw [heq]
      refine ⟨?_, ?_, ?_⟩
      · intro l hl
        rcases List.mem_cons.mp hl with hl | hl
        · exact hl ▸ lineRep_lineOK hcur_rep
        · exact ha l hl
      · intro l hl
        simp only [List.drop_one, List.tail_cons] at hl
        exact hc rfl l hl
      · intro hf l hl
        rcases List.mem_cons.mp hl with hl | hl
        · exact hl ▸ lineRep_padOK hW (hf ▸ hcur_rep)
        · exact hc rfl l hl
    · by_cases hcz : cur = []
      · have hft : first = true := by
          rcases hinv with ⟨_, h⟩ | hrep
          · exact h
          · exact absurd hcz (lineRep_ne_nil hW hrep)
        subst hft
        subst hcz
        have hnew : lineRep width indent W true w :=
          ⟨[w], by simp, by simpa using hwW, by simp [sepJoin], by intro h2; simp at h2⟩
        have heq : wrapLoop width indent (w :: rest) [] (List.length ([] : List Char)) true =
            wrapLoop width indent rest w w.length true := by
          simp only [wrapLoop, List.length_nil, placeWord_first]
          simp
        obtain ⟨ha, hb, hc⟩ := ih w true hrestW (Or.inr hnew)
        rw [heq]
        exact ⟨ha, hb, fun hf => by cases hf⟩
      · have hrep : lineRep width indent W first cur := by
          rcases hinv with ⟨hc, _⟩ | h
          · exact absurd hc hcz
          · exact h
        have hpos : 0 < cur.length := List.length_pos.mpr hcz
        have hle : (cur.length : Int) + 1 + w.length ≤ width := by
          rcases not_and_or.mp hfl with h | h
          · exact absurd hpos h
          · omega
        obtain ⟨ws0, hne0, hsub0, hcur0, _⟩ := hrep
        have hnew : lineRep width indent W first (cur ++ ' ' :: w) := by
          refine ⟨ws0 ++ [w], by simp, ?_, ?_, ?_⟩
          · intro x hx
            rcases List.mem_append.mp hx with h | h
            · exact hsub0 x h
            · rw [List.mem_singleton.mp h]; exact hwW
          · rw [sepJoin_append_single ws0 w hne0, hcur0]
            simp
          · intro _
            have hlen2 : (cur ++ ' ' :: w).length = cur.length + 1 + w.length := by
              simp [List.length_append]
              omega
            rw [hlen2]
            push_cast
            omega
        have heq : wrapLoop width indent (w :: rest) cur cur.length first =
            wrapLoop width indent rest (cur ++ ' ' :: w) (cur ++ ' ' :: w).length first := by
          simp only [wrapLoop, if_neg hfl, placeWord_more indent cur w first hpos]
        obtain ⟨ha, hb, hc⟩ := ih (cur ++ ' ' :: w) first hrestW (Or.inr hnew)
        rw [heq]
        exact ⟨ha, hb, hc⟩

/-- C1 counterexample: at width 5 and indent 2, wrapping `aaaa bbbb`
produces a second line of 3 leading spaces (not 2) and display width 7
(above the width), although no single word of the input exceeds the
width. -/
theorem wrapTextWithIndent_claim_counterexample :
    wrapTextWithIndent "aaaa bbbb" 5 2 = "aaaa\n   bbbb" ∧
    wrapLines "aaaa bbbb".data 5 2 = ["aaaa".data, "   bbbb".data] ∧
    leadingSpaces "   bbbb".data = 3 ∧
    ¬ ((("   bbbb".data).length : Int) ≤ 5) ∧
    (∀ w ∈ goFields "aaaa bbbb".data, (w.length : Int) ≤ 5) := by
  refine ⟨by decide, by decide, by decide, by decide, by decide⟩

/-- C1 amended: for non-positive width the text is returned unchanged;
for positive width the result joins the produced lines with newlines,
every produced line either fits the width or consists of a single input
word preceded (on continuation lines) by the actual padding, and every
line after the first starts with exactly `indent + 1` spaces when
`indent > 0` (the `indent`-space hanging indent plus the separator
space) and with none when `indent = 0`. -/
theorem wrapTextWithIndent_amended (text : String) (width : Int) (indent : Nat) :
    (width ≤ 0 → wrapTextWithIndent text width indent = text) ∧
    (0 < width →
      wrapTextWithIndent text width indent =
        String.mk (List.intercalate ['\n'] (wrapLines text.data width indent)) ∧
      (∀ l ∈ wrapLines text.data width indent, lineOK width indent (goFields text.data) l) ∧
      (∀ l ∈ (wrapLines text.data width indent).drop 1, padOK indent l)) := by
  constructor
  · intro h
    simp [wrapTextWithIndent, h]
  · intro hw
    have hnle : ¬ width ≤ 0 := by omega
    have hspec := wrapLoop_spec width hw indent (goFields text.data) (goFields_wordsOK _)
      (goFields text.data) [] true (fun w h => h) (Or.inl ⟨rfl, rfl⟩)
    refine ⟨?_, ?_, ?_⟩
    · simp only [wrapTextWithIndent, hnle, if_false, wrapLines]
      cases hgf : goFields text.data with
      | nil => rfl
      | cons a as => rfl
    · exact fun l hl => hspec.1 l hl
    · exact fun l hl => hspec.2.1 l hl

/-- C1 witness: the amended properties at a concrete wrap, and the
degenerate case at a non-positive width. -/
theorem wrapTextWithIndent_amended_witness :
    (∀ l ∈ wrapLines "aaaa bbbb".data 5 2, lineOK 5 2 (goFields "aaaa bbbb".data) l) ∧
    (∀ l ∈ (wrapLines "aaaa bbbb".data 5 2).drop 1, padOK 2 l) ∧
    wrapTextWithIndent "hello world" (-3) 4 = "hello world" := by
  refine ⟨(wrapTextWithIndent_amended "aaaa bbbb" 5 2).2 (by decide) |>.2.1,
    (wrapTextWithIndent_amended "aaaa bbbb" 5 2).2 (by decide) |>.2.2,
    (wrapTextWithIndent_amended "hello world" (-3) 4).1 (by decide)⟩

end SwordTui
